import Mathlib

/-!
Verification of the qstr/module extraction core of `micropython-rs`
(`micropython_src`): a shallow embedding of `src/qstr.rs`, `src/module.rs`
and the inline scanner in `src/lib.rs`, with theorems about hashing,
identifier sanitization, string escaping, deduplication and ordering.

Strings are embedded as `List Char` (Rust `String` / `&str`); fallible or
panicking operations return `Option`.
-/

set_option maxHeartbeats 1000000
set_option maxRecDepth 100000

/-! ## Character classes (Rust `char` predicates and the regex classes) -/

/-- Rust `char::is_ascii`. -/
def isAscii (c : Char) : Bool := c.toNat ≤ 0x7f

/-- Rust `char::is_ascii_control`: U+0000..U+001F or U+007F. -/
def isAsciiControl (c : Char) : Bool := c.toNat ≤ 0x1f || c.toNat == 0x7f

/-- The regex character class `[_a-zA-Z0-9]` from the qstr pattern. -/
def isWordChar (c : Char) : Bool :=
  (97 ≤ c.toNat && c.toNat ≤ 122) || (65 ≤ c.toNat && c.toNat ≤ 90) ||
  (48 ≤ c.toNat && c.toNat ≤ 57) || c.toNat == 95

/-- The regex class `\s` (Unicode White_Space, the regex crate's default). -/
def isRegexSpace (c : Char) : Bool :=
  let n := c.toNat
  (9 ≤ n && n ≤ 13) || n == 32 || n == 0x85 || n == 0xa0 || n == 0x1680 ||
  (0x2000 ≤ n && n ≤ 0x200a) || n == 0x2028 || n == 0x2029 || n == 0x202f ||
  n == 0x205f || n == 0x3000

/-! ## UTF-8 bytes of a string (Rust `str::as_bytes` / `str::len`) -/

/-- UTF-8 encoding of one scalar value, as a list of byte values. -/
def utf8Char (c : Char) : List Nat :=
  let n := c.toNat
  if n < 0x80 then [n]
  else if n < 0x800 then [0xc0 + n / 64, 0x80 + n % 64]
  else if n < 0x10000 then [0xe0 + n / 4096, 0x80 + n / 64 % 64, 0x80 + n % 64]
  else [0xf0 + n / 262144, 0x80 + n / 4096 % 64, 0x80 + n / 64 % 64, 0x80 + n % 64]

/-- UTF-8 bytes of a string, as `str::as_bytes` yields them. -/
def utf8Bytes (s : List Char) : List Nat := s.flatMap utf8Char

/-! ## Configuration and static data (`src/lib.rs`) -/

/-- `BytesIn` from `src/lib.rs`: the configured width of hashes / lengths. -/
inductive BytesIn where
  | one
  | two
deriving DecidableEq, Repr

/-- `BytesIn::mask` from `src/lib.rs`. -/
def BytesIn.mask : BytesIn → Nat
  | .one => 0xff
  | .two => 0xffff

/-- `Config` from `src/lib.rs` (it has exactly these two fields). -/
structure Config where
  bytes_in_hash : BytesIn
  bytes_in_string : BytesIn
deriving DecidableEq, Repr

/-- `Data` from `src/lib.rs`: the translation table and the two built-in
symbol lists, loaded from the crate's declarative data files.  The
`HashMap<char, String>` is embedded as an association list queried by key. -/
structure Data where
  qstr_ident_translations : List (Char × List Char)
  static_qstrs : List (List Char)
  unsorted_qstrs : List (List Char)
deriving DecidableEq, Repr

/-- `HashMap::get` on the embedded translation table. -/
def lookupTranslation (t : List (Char × List Char)) (c : Char) : Option (List Char) :=
  (t.find? (fun p => p.1 == c)).map (·.2)

/-! ## The symbol record (`QStr` in `src/qstr.rs`) -/

/-- `QStr` from `src/qstr.rs` (same shape in `src/lib.rs`): `val` holds the
escaped value, `val_len` the byte length of the unescaped value. -/
structure QStr where
  pool : Nat
  val : List Char
  ident : List Char
  hash : Nat
  val_len : Nat
  source : List Char
deriving DecidableEq, Repr

/-- `QStr::hash` from `src/qstr.rs`: DJB-variant fold over the bytes with
`Wrapping<u32>` arithmetic, masked to the configured width, 0 forced to 1. -/
def qstrHash (data : List Nat) (bytes_in_hash : BytesIn) : Nat :=
  let h := data.foldl (fun h b => (h * 33 % 2 ^ 32) ^^^ b) 5381
  let h := h &&& bytes_in_hash.mask
  if h = 0 then 1 else h

/-- `QStr::ident` from `src/qstr.rs`: the fixed namespace prelude, then each
character either translated to `_<replacement>_` or pushed unchanged. -/
def qstrIdent (data : Data) (val : List Char) : List Char :=
  val.foldl
    (fun s c =>
      match lookupTranslation data.qstr_ident_translations c with
      | some r => s ++ ('_' :: (r ++ ['_']))
      | none => s ++ [c])
    "MP_QSTR_".toList

/-- Lowercase hex digit of `n < 16`, as `format!` with `x` renders it. -/
def hexDigitChar (n : Nat) : Char :=
  if n < 10 then Char.ofNat (48 + n) else Char.ofNat (87 + n)

/-- The `\xHH` escape written for one character by `QStr::escape_string`. -/
def hexEscape (c : Char) : List Char :=
  ['\\', 'x', hexDigitChar (c.toNat / 16), hexDigitChar (c.toNat % 16)]

/-- `QStr::escape_string` from `src/qstr.rs`; `none` embeds the
`can't escape non-ascii string` panic. -/
def escape_string (val : List Char) : Option (List Char) :=
  if val.all fun c => !isAsciiControl c then some val
  else if val.any fun c => !isAscii c then none
  else some (val.foldl (fun output c => output ++ hexEscape c) [])

/-- `QStr::new` from `src/qstr.rs`; `none` when `escape_string` panics. -/
def qstrNew (config : Config) (data : Data) (val : List Char) (pool : Nat)
    (source : List Char) : Option QStr :=
  (escape_string val).map fun escaped =>
    { pool := pool
      val := escaped
      ident := qstrIdent data val
      hash := qstrHash (utf8Bytes val) config.bytes_in_hash
      val_len := (utf8Bytes val).length
      source := source }

/-! ## The qstr reference scanner (regex `MP_QSTR_([_a-zA-Z0-9]+)`) -/

/-- The literal part of the qstr regex. -/
def mpQstrPat : List Char := "MP_QSTR_".toList

/-- One scan step of `MP_QSTR_([_a-zA-Z0-9]+)`: at each position, match the
literal then a nonempty greedy run of word characters, else advance one
character.  `fuel` only bounds the recursion (every step consumes at least
one character, so `fuel = length` is enough). -/
def qstrCapturesAux : Nat → List Char → List (List Char)
  | 0, _ => []
  | _, [] => []
  | fuel + 1, c :: rest =>
    if mpQstrPat.isPrefixOf (c :: rest) then
      let after := rest.drop 7
      let w := after.takeWhile isWordChar
      if w.isEmpty then qstrCapturesAux fuel rest
      else w :: qstrCapturesAux fuel (after.dropWhile isWordChar)
    else qstrCapturesAux fuel rest

/-- All capture groups of `MP_QSTR_([_a-zA-Z0-9]+)` over one line, in the
leftmost, non-overlapping order `Regex::captures_iter` yields them. -/
def qstrCaptures (l : List Char) : List (List Char) := qstrCapturesAux l.length l

/-! ## The symbol extractor (`Extractor` in `src/qstr.rs`) -/

/-- `ExtractedQstrs` from `src/qstr.rs`. -/
structure ExtractedQstrs where
  static_qstrs : List QStr
  unsorted_qstrs : List QStr
deriving DecidableEq, Repr

/-- The mutable state of `Extractor` in `src/qstr.rs`: the seen-identifier
set (`HashSet<String>`, embedded as a membership-queried list) and the
growing discovered list. -/
structure ExtractorState where
  idents : List (List Char)
  unsorted_qstrs : List QStr
deriving DecidableEq, Repr

/-- The body of the loop in `Extractor::process_line`: build the record for
one captured token, then either drop it (identifier already seen) or insert
its identifier and append the record. -/
def processCapture (config : Config) (data : Data) (source : List Char)
    (st : ExtractorState) (s : List Char) : Option ExtractorState :=
  (qstrNew config data s 1 source).map fun qstr =>
    if st.idents.contains qstr.ident then st
    else { idents := qstr.ident :: st.idents
           unsorted_qstrs := st.unsorted_qstrs ++ [qstr] }

/-- `Extractor::process_line` from `src/qstr.rs`. -/
def process_line (config : Config) (data : Data) (st : ExtractorState)
    (source line : List Char) : Option ExtractorState :=
  (qstrCaptures line).foldlM (processCapture config data source) st

/-- `Extractor::new` from `src/qstr.rs`: seed the seen-set with the
identifiers of every built-in static and built-in unsorted symbol, and the
discovered list with pool-0 records over the built-in unsorted list. -/
def extractorNew (config : Config) (data : Data) : Option ExtractorState := do
  let idents ← (data.static_qstrs ++ data.unsorted_qstrs).mapM fun s =>
    (qstrNew config data s 0 "Built in statics".toList).map (·.ident)
  let unsorted ← data.unsorted_qstrs.mapM fun s =>
    qstrNew config data s 0 "Built in unsorted".toList
  some { idents := idents, unsorted_qstrs := unsorted }

/-- `Extractor::finish` from `src/qstr.rs`: recompute the static list as
pool-0 records over the built-in static list and hand both lists over. -/
def extractorFinish (config : Config) (data : Data) (st : ExtractorState) :
    Option ExtractedQstrs :=
  (data.static_qstrs.mapM fun s =>
      qstrNew config data s 0 "Built in unsorted".toList).map
    fun statics => { static_qstrs := statics, unsorted_qstrs := st.unsorted_qstrs }

/-- One translation unit fed to the extractor: its origin label and its
preprocessed lines, line by line. -/
def processUnit (config : Config) (data : Data) (st : ExtractorState)
    (unit : List Char × List (List Char)) : Option ExtractorState :=
  unit.2.foldlM (fun st line => process_line config data st unit.1 line) st

/-- The whole extractor pipeline of `src/qstr.rs`: `Extractor::new`, then
`process_line` on every line of every unit in order, then `Extractor::finish`. -/
def runExtractor (config : Config) (data : Data)
    (units : List (List Char × List (List Char))) : Option ExtractedQstrs := do
  let st ← extractorNew config data
  let st ← units.foldlM (processUnit config data) st
  extractorFinish config data st

/-! ## The inline scanner (`Build::extract_data` in `src/lib.rs`)

`Build::extract_data` duplicates the extractor's logic inline, with the
seen-set and the discovered list as two local mutable variables.  It is
embedded separately here, with the loop state as an explicit pair, so that
its equivalence with the `Extractor` of `src/qstr.rs` is a theorem about
two independent definitions.  Preprocessing (`cc::Build::expand`) is the
out-of-scope collaborator producing each unit's lines; the embedding takes
the preprocessed units as input. -/

/-- `ExtractedData` from `src/lib.rs`. -/
structure ExtractedData where
  static_qstrs : List QStr
  unsorted_qstrs : List QStr
deriving DecidableEq, Repr

/-- The innermost loop body of `Build::extract_data` (per captured token). -/
def inlineCaptureStep (config : Config) (data : Data) (source : List Char)
    (acc : List (List Char) × List QStr) (s : List Char) :
    Option (List (List Char) × List QStr) :=
  (qstrNew config data s 1 source).map fun qstr =>
    if acc.1.contains qstr.ident then acc
    else (qstr.ident :: acc.1, acc.2 ++ [qstr])

/-- The per-line loop of `Build::extract_data`. -/
def inlineLineStep (config : Config) (data : Data) (source : List Char)
    (acc : List (List Char) × List QStr) (line : List Char) :
    Option (List (List Char) × List QStr) :=
  (qstrCaptures line).foldlM (inlineCaptureStep config data source) acc

/-- The per-source-file loop of `Build::extract_data`. -/
def inlineUnitStep (config : Config) (data : Data)
    (acc : List (List Char) × List QStr) (unit : List Char × List (List Char)) :
    Option (List (List Char) × List QStr) :=
  unit.2.foldlM (inlineLineStep config data unit.1) acc

/-- `Build::extract_data` from `src/lib.rs`: seed `idents` and `qstrs`,
run the nested scan loops, then recompute the static list. -/
def extract_data (config : Config) (data : Data)
    (units : List (List Char × List (List Char))) : Option ExtractedData := do
  let idents ← (data.static_qstrs ++ data.unsorted_qstrs).mapM fun s =>
    (qstrNew config data s 0 "Built in statics".toList).map (·.ident)
  let qstrs ← data.unsorted_qstrs.mapM fun s =>
    qstrNew config data s 0 "Built in unsorted".toList
  let acc ← units.foldlM (inlineUnitStep config data) (idents, qstrs)
  let statics ← data.static_qstrs.mapM fun s =>
    qstrNew config data s 0 "Built in unsorted".toList
  some { static_qstrs := statics, unsorted_qstrs := acc.2 }

/-! ## The module extractor (`src/module.rs`) -/

/-- The three registration keywords of the module regex, as a category tag
(`<KIND>` in the spec). -/
inductive ModuleKind where
  | module
  | extensibleModule
  | moduleDelegation
deriving DecidableEq, Repr

/-- `Module` from `src/module.rs` (Lean's `Module` is taken, hence the
`Record` suffix; the spec calls it ModuleRecord). -/
structure ModuleRecord where
  qstr_ident : List Char
  upper_name : List Char
  symbol : List Char
  source : List Char
deriving DecidableEq, Repr

/-- `ExtractedModules` from `src/module.rs`; also the state of its
`Extractor` (three growing lists). -/
structure ExtractedModules where
  modules : List ModuleRecord
  extensible_modules : List ModuleRecord
  module_delegations : List ModuleRecord
deriving DecidableEq, Repr

/-- Keyword and opening parenthesis of a plain module registration. -/
def kwModule : List Char := "MP_REGISTER_MODULE(".toList

/-- Keyword and opening parenthesis of an extensible module registration. -/
def kwExtensible : List Char := "MP_REGISTER_EXTENSIBLE_MODULE(".toList

/-- Keyword and opening parenthesis of a module delegation registration. -/
def kwDelegation : List Char := "MP_REGISTER_MODULE_DELEGATION(".toList

/-- Try the three alternatives of the module regex at one position, in the
pattern's order, each followed by the literal `(`. -/
def matchRegister (l : List Char) : Option (ModuleKind × List Char) :=
  if kwModule.isPrefixOf l then some (.module, l.drop kwModule.length)
  else if kwExtensible.isPrefixOf l then some (.extensibleModule, l.drop kwExtensible.length)
  else if kwDelegation.isPrefixOf l then some (.moduleDelegation, l.drop kwDelegation.length)
  else none

/-- The lazy group `(.*?),`: the shortest run of non-newline characters up
to a comma.  `none` when no comma is reachable (a newline or the end of the
input stops the lazy group). -/
def splitComma : List Char → Option (List Char × List Char)
  | [] => none
  | c :: rest =>
    if c = ',' then some ([], rest)
    else if c = '\n' then none
    else (splitComma rest).map fun p => (c :: p.1, p.2)

/-- The lazy group `(.*?)\);`: the shortest run of non-newline characters up
to the literal `);`. -/
def splitCloseSemi : List Char → Option (List Char × List Char)
  | [] => none
  | c :: rest =>
    if c = ')' ∧ rest.head? = some ';' then some ([], rest.tail)
    else if c = '\n' then none
    else (splitCloseSemi rest).map fun p => (c :: p.1, p.2)

/-- One scan step of the module regex at each position: one of the three
keywords and `(`, the lazy group up to the comma, greedy `\s*`, the lazy
group up to `);`; else advance one character.  `fuel` only bounds the
recursion (every step consumes at least one character, so `fuel = length`
is enough). -/
def moduleCapturesAux : Nat → List Char → List (ModuleKind × List Char × List Char)
  | 0, _ => []
  | _, [] => []
  | fuel + 1, c :: rest =>
    match matchRegister (c :: rest) with
    | none => moduleCapturesAux fuel rest
    | some (k, after) =>
      match splitComma after with
      | none => moduleCapturesAux fuel rest
      | some (arg1, afterComma) =>
        match splitCloseSemi (afterComma.dropWhile isRegexSpace) with
        | none => moduleCapturesAux fuel rest
        | some (arg2, rest2) => (k, arg1, arg2) :: moduleCapturesAux fuel rest2

/-- All `(kind, symbol token, bound symbol)` captures of the module regex
over one line, leftmost and non-overlapping, as `captures_iter` yields
them. -/
def moduleCaptures (l : List Char) : List (ModuleKind × List Char × List Char) :=
  moduleCapturesAux l.length l

/-- Strip the namespace from the symbol token:
`qstr.strip_prefix("MP_QSTR_").unwrap_or(qstr)`. -/
def stripQstrNamespace (s : List Char) : List Char :=
  if mpQstrPat.isPrefixOf s then s.drop 8 else s

/-- Rust `str::to_uppercase` applied to one token: each character replaced
by its (possibly multi-character) Unicode uppercase expansion.  The Unicode
case table is external library data, like the crate's translation table,
so the embedding carries the per-character mapping `upc` as a parameter;
the program is the instance at the real table. -/
def strToUppercase (upc : Char → List Char) (s : List Char) : List Char :=
  s.flatMap upc

/-- The ASCII fragment of the Unicode uppercase mapping: on ASCII
characters the real table sends `a`..`z` to the single corresponding
capital and fixes everything else.  Used to instantiate `upc` in concrete
ASCII examples. -/
def asciiUpcaseTable (c : Char) : List Char :=
  if 97 ≤ c.toNat && c.toNat ≤ 122 then [Char.ofNat (c.toNat - 32)] else [c]

/-- The `Module` record built for one capture in
`module::Extractor::process_line`, with `to_uppercase` interpreted by
`upc`. -/
def mkModuleRecord (upc : Char → List Char) (source : List Char)
    (cap : ModuleKind × List Char × List Char) : ModuleRecord :=
  { qstr_ident := cap.2.1
    upper_name := strToUppercase upc (stripQstrNamespace cap.2.1)
    symbol := cap.2.2
    source := source }

/-- `module::Extractor::process_line` from `src/module.rs`, with
`to_uppercase` interpreted by `upc`: for each capture append one record to
the list matching its keyword.  (The extractor's state and its `finish()`
result have the same three lists, so `ExtractedModules` serves as both;
`finish` returns them as-is.) -/
def module_process_line (upc : Char → List Char) (st : ExtractedModules)
    (source line : List Char) : ExtractedModules :=
  (moduleCaptures line).foldl
    (fun st cap =>
      let m := mkModuleRecord upc source cap
      match cap.1 with
      | .module => { st with modules := st.modules ++ [m] }
      | .extensibleModule =>
          { st with extensible_modules := st.extensible_modules ++ [m] }
      | .moduleDelegation =>
          { st with module_delegations := st.module_delegations ++ [m] })
    st

/-! ## Spec-side definitions

Definitions in this section follow the specification's wording, to be
compared against the embedded code above. -/

/-- The configured hash width in bits, as the spec words it. -/
def specWidth : BytesIn → Nat
  | .one => 8
  | .two => 16

/-- The spec's hash description, stated independently of the code: start
the accumulator at 5381, fold `(acc * 33) XOR b` with 32-bit wraparound
over the UTF-8 bytes, reduce to the configured width, force 0 to 1. -/
def specHash (val : List Char) (b : BytesIn) : Nat :=
  let acc := (utf8Bytes val).foldl (fun acc byte => (acc * 33 % 2 ^ 32) ^^^ byte) 5381
  let masked := acc % 2 ^ specWidth b
  if masked = 0 then 1 else masked

/-- Modelled from the spec: the aggregator's `allSymbols` contract
(`allSymbols = staticSymbols ++ discoveredSymbols`).  The concatenation
itself is performed by the out-of-scope template-rendering collaborator
(`templates/` of the crate, outside `src/`), so it is embedded from the
spec's words. -/
def allSymbols (e : ExtractedQstrs) : List QStr :=
  e.static_qstrs ++ e.unsorted_qstrs

/-- The record the scanner builds for a captured token: pool `Discovered(1)`,
value kept verbatim (captured tokens never need escaping). -/
def mkScanQStr (config : Config) (data : Data) (source t : List Char) : QStr :=
  { pool := 1
    val := t
    ident := qstrIdent data t
    hash := qstrHash (utf8Bytes t) config.bytes_in_hash
    val_len := (utf8Bytes t).length
    source := source }

/-- The token stream contributed by one translation unit: every captured
token of every line, paired with the unit's origin label, in line order
then within-line order. -/
def unitStream (u : List Char × List (List Char)) : List (List Char × List Char) :=
  u.2.flatMap fun line => (qstrCaptures line).map fun t => (u.1, t)

/-- The flattened scan stream: every captured token of every line of every
unit, paired with its unit's origin label, in translation-unit order then
line order then within-line order. -/
def scanStream (units : List (List Char × List (List Char))) :
    List (List Char × List Char) :=
  units.flatMap unitStream

/-- The seen-identifier set after a list of tokens is scanned. -/
def specSeen (data : Data) (seen : List (List Char)) :
    List (List Char × List Char) → List (List Char)
  | [] => seen
  | (_, t) :: rest =>
    let id := qstrIdent data t
    specSeen data (if seen.contains id then seen else id :: seen) rest

/-- The spec's first-occurrence-wins filter over the scan stream: a token
whose identifier was already seen is dropped, a new one is kept (and its
identifier remembered), in stream order. -/
def specDedup (config : Config) (data : Data) (seen : List (List Char)) :
    List (List Char × List Char) → List QStr
  | [] => []
  | (src, t) :: rest =>
    let id := qstrIdent data t
    if seen.contains id then specDedup config data seen rest
    else mkScanQStr config data src t :: specDedup config data (id :: seen) rest

/-- What `QStr::ident` appends for one character: `_<replacement>_` when
the translation table has the character, the character alone otherwise. -/
def identPiece (data : Data) (c : Char) : List Char :=
  match lookupTranslation data.qstr_ident_translations c with
  | some r => '_' :: (r ++ ['_'])
  | none => [c]

/-- Value of a lowercase hex digit character. -/
def hexVal (c : Char) : Nat :=
  if c.toNat ≤ 57 then c.toNat - 48 else c.toNat - 87

/-- Lowercase hex digit character class. -/
def isHexDigit (c : Char) : Bool :=
  (48 ≤ c.toNat && c.toNat ≤ 57) || (97 ≤ c.toNat && c.toNat ≤ 102)

/-- The spec's escape round-trip decoder: replace each two-digit lowercase
hex escape `\xHH` by the byte it denotes, leaving everything else alone. -/
def decodeEscapes : List Char → List Char
  | '\\' :: 'x' :: d1 :: d2 :: rest =>
    if isHexDigit d1 && isHexDigit d2 then
      Char.ofNat (16 * hexVal d1 + hexVal d2) :: decodeEscapes rest
    else '\\' :: decodeEscapes ('x' :: d1 :: d2 :: rest)
  | c :: rest => c :: decodeEscapes rest
  | [] => []

/-- Modelled from the spec: the extra-symbol record of the aggregator
(spec §4.5) — one symbol per `Config.extraSymbols` entry with pool
`Discovered(1)` and a fixed origin label naming it externally configured.
The `Config` in `src/lib.rs` has no `extraSymbols` field and
`Build::extract_data` builds no such record; this definition exists to
compare that spec description against the code. -/
def specExtraQStr (config : Config) (data : Data) (s : List Char) : Option QStr :=
  qstrNew config data s 1 "Configured extra".toList

/-- Modelled from the spec: the discovered list the spec's aggregator would
return — the scanned discovered list with one extra record per configured
extra symbol appended in configuration order. -/
def specAggregatedDiscovered (config : Config) (data : Data)
    (scanned : List QStr) (extraSymbols : List (List Char)) : Option (List QStr) :=
  (extraSymbols.mapM (specExtraQStr config data)).map fun extras => scanned ++ extras

/-! ## Helper lemmas: characters, escaping, captured tokens -/

/-- A word character (from the qstr character class) is not a control
character. -/
theorem isWordChar_not_control {c : Char} (h : isWordChar c = true) :
    isAsciiControl c = false := by
  simp only [isWordChar, Bool.or_eq_true, Bool.and_eq_true, decide_eq_true_eq,
    beq_iff_eq] at h
  simp only [isAsciiControl, Bool.or_eq_false_iff, decide_eq_false_iff_not,
    beq_eq_false_iff_ne, ne_eq]
  omega

/-- A string of word characters contains no control character. -/
theorem all_not_control_of_all_word {t : List Char} (h : t.all isWordChar = true) :
    (t.all fun c => !isAsciiControl c) = true := by
  rw [List.all_eq_true] at h ⊢
  intro c hc
  simp [isWordChar_not_control (h c hc)]

/-- A string with no control characters escapes to itself. -/
theorem escape_string_of_no_control {val : List Char}
    (h : (val.all fun c => !isAsciiControl c) = true) :
    escape_string val = some val := by
  simp [escape_string, h]

/-- A word-character token builds exactly the plain scan record. -/
theorem qstrNew_word {config : Config} {data : Data} {source t : List Char}
    (h : t.all isWordChar = true) :
    qstrNew config data t 1 source = some (mkScanQStr config data source t) := by
  rw [qstrNew, escape_string_of_no_control (all_not_control_of_all_word h)]
  rfl

/-- Every token the qstr scanner captures (at any fuel) is a nonempty run
of word characters. -/
theorem qstrCapturesAux_word :
    ∀ {fuel : Nat} {l t : List Char}, t ∈ qstrCapturesAux fuel l →
      t ≠ [] ∧ t.all isWordChar = true := by
  intro fuel
  induction fuel with
  | zero => intro l t h; simp [qstrCapturesAux] at h
  | succ fuel ih =>
    intro l t h
    match l with
    | [] => simp [qstrCapturesAux] at h
    | c :: rest =>
      simp only [qstrCapturesAux] at h
      by_cases hp : mpQstrPat.isPrefixOf (c :: rest) = true
      · rw [if_pos hp] at h
        by_cases hw : ((rest.drop 7).takeWhile isWordChar).isEmpty = true
        · rw [if_pos hw] at h
          exact ih h
        · rw [if_neg hw] at h
          rcases List.mem_cons.mp h with he | hm
          · subst he
            constructor
            · intro hnil
              rw [← List.isEmpty_iff] at hnil
              exact hw hnil
            · rw [List.all_eq_true]
              intro x hx
              exact List.mem_takeWhile_imp hx
          · exact ih hm
      · rw [if_neg hp] at h
        exact ih h

/-- Every token the qstr scanner captures is a nonempty run of word
characters. -/
theorem qstrCaptures_word {l t : List Char} (h : t ∈ qstrCaptures l) :
    t ≠ [] ∧ t.all isWordChar = true :=
  qstrCapturesAux_word h

/-! ## Helper lemmas: `Option`-valued `mapM` and record projections -/

/-- `mapM` over `Option` succeeds exactly on pointwise successes. -/
theorem mapM_option_eq_some {α β : Type} {f : α → Option β} :
    ∀ {l : List α} {ys : List β},
      l.mapM f = some ys ↔ List.Forall₂ (fun a b => f a = some b) l ys := by
  intro l
  induction l with
  | nil =>
    intro ys
    constructor
    · intro h
      simp only [List.mapM_nil] at h
      cases h
      exact List.Forall₂.nil
    · intro h
      cases h
      rfl
  | cons a l ih =>
    intro ys
    constructor
    · intro h
      simp only [List.mapM_cons] at h
      cases hfa : f a with
      | none => rw [hfa] at h; simp at h
      | some b =>
        rw [hfa] at h
        cases hml : l.mapM f with
        | none => rw [hml] at h; simp at h
        | some bs =>
          rw [hml] at h
          simp only [Option.bind_eq_bind, Option.some_bind, Option.pure_def,
            Option.some.injEq] at h
          cases h
          exact List.Forall₂.cons hfa (ih.mp hml)
    · intro h
      cases h with
      | cons hab htl =>
        simp only [List.mapM_cons, hab, ih.mpr htl, Option.bind_eq_bind,
          Option.some_bind, Option.pure_def]

/-- A `Forall₂` against `b = g a` pins the right list down. -/
theorem forall₂_eq_map {α β : Type} {g : α → β} :
    ∀ {l : List α} {ys : List β},
      List.Forall₂ (fun a b => b = g a) l ys → ys = l.map g := by
  intro l
  induction l with
  | nil => intro ys h; cases h; rfl
  | cons a l ih =>
    intro ys h
    cases h with
    | cons hab htl => simp [hab, ih htl]

/-- Projections of a successfully built record. -/
theorem qstrNew_proj {config : Config} {data : Data} {v : List Char} {p : Nat}
    {src : List Char} {q : QStr} (h : qstrNew config data v p src = some q) :
    q.pool = p ∧ q.ident = qstrIdent data v ∧
      q.hash = qstrHash (utf8Bytes v) config.bytes_in_hash ∧
      q.val_len = (utf8Bytes v).length ∧ q.source = src := by
  rw [qstrNew, Option.map_eq_some'] at h
  obtain ⟨e, he, hq⟩ := h
  subst hq
  exact ⟨rfl, rfl, rfl, rfl, rfl⟩

/-- `qstrNew` succeeds or fails with `escape_string` alone: the pool and the
origin label do not matter. -/
theorem qstrNew_isSome {config : Config} {data : Data} {v : List Char} {p : Nat}
    {src : List Char} :
    (qstrNew config data v p src).isSome = (escape_string v).isSome := by
  rw [qstrNew]
  cases escape_string v <;> rfl

/-! ## Helper lemmas: the scan fold versus the first-occurrence filter -/

/-- `specSeen` splits over appended streams. -/
theorem specSeen_append (data : Data) :
    ∀ (s₁ s₂ : List (List Char × List Char)) (seen : List (List Char)),
      specSeen data seen (s₁ ++ s₂) = specSeen data (specSeen data seen s₁) s₂ := by
  intro s₁
  induction s₁ with
  | nil => intro s₂ seen; rfl
  | cons p rest ih =>
    intro s₂ seen
    obtain ⟨src, t⟩ := p
    simp only [List.cons_append, specSeen]
    exact ih s₂ _

/-- `specDedup` splits over appended streams, the seen-set advancing by
`specSeen`. -/
theorem specDedup_append (config : Config) (data : Data) :
    ∀ (s₁ s₂ : List (List Char × List Char)) (seen : List (List Char)),
      specDedup config data seen (s₁ ++ s₂) =
        specDedup config data seen s₁ ++
          specDedup config data (specSeen data seen s₁) s₂ := by
  intro s₁
  induction s₁ with
  | nil => intro s₂ seen; rfl
  | cons p rest ih =>
    intro s₂ seen
    obtain ⟨src, t⟩ := p
    simp only [List.cons_append, specDedup, specSeen]
    by_cases hc : seen.contains (qstrIdent data t) = true
    · simp only [if_pos hc]
      exact ih s₂ seen
    · simp only [if_neg hc, List.append_eq]
      rw [ih s₂ (qstrIdent data t :: seen)]
      rfl

/-- The identifier field of a scan record. -/
theorem mkScanQStr_ident {config : Config} {data : Data} {source t : List Char} :
    (mkScanQStr config data source t).ident = qstrIdent data t := rfl

/-- One `processCapture` fold over word tokens equals the first-occurrence
filter over the corresponding stream fragment. -/
theorem processCapture_fold (config : Config) (data : Data) (source : List Char) :
    ∀ (toks : List (List Char)) (st : ExtractorState),
      (∀ t ∈ toks, t.all isWordChar = true) →
      toks.foldlM (processCapture config data source) st =
        some { idents := specSeen data st.idents (toks.map fun t => (source, t))
               unsorted_qstrs := st.unsorted_qstrs ++
                 specDedup config data st.idents (toks.map fun t => (source, t)) } := by
  intro toks
  induction toks with
  | nil =>
    intro st _
    simp [specSeen, specDedup]
  | cons t rest ih =>
    intro st hw
    have ht := hw t (List.mem_cons_self t rest)
    have hrest : ∀ x ∈ rest, x.all isWordChar = true :=
      fun x hx => hw x (List.mem_cons_of_mem t hx)
    rw [List.foldlM_cons, processCapture, qstrNew_word ht]
    simp only [Option.map_some', Option.bind_eq_bind, Option.some_bind, List.map_cons,
      specSeen, specDedup, mkScanQStr_ident]
    by_cases hc : st.idents.contains (qstrIdent data t) = true
    · simp only [if_pos hc]
      exact ih st hrest
    · simp only [if_neg hc]
      rw [ih _ hrest]
      simp only [List.append_assoc, List.singleton_append]

/-- `process_line` equals the first-occurrence filter over the line's
captures. -/
theorem process_line_eq (config : Config) (data : Data) (st : ExtractorState)
    (source line : List Char) :
    process_line config data st source line =
      some { idents := specSeen data st.idents ((qstrCaptures line).map fun t => (source, t))
             unsorted_qstrs := st.unsorted_qstrs ++
               specDedup config data st.idents ((qstrCaptures line).map fun t => (source, t)) } :=
  processCapture_fold config data source (qstrCaptures line) st
    (fun _ ht => (qstrCaptures_word ht).2)

/-- `processUnit` equals the first-occurrence filter over the unit's
stream. -/
theorem processUnit_eq (config : Config) (data : Data) :
    ∀ (lines : List (List Char)) (src : List Char) (st : ExtractorState),
      processUnit config data st (src, lines) =
        some { idents := specSeen data st.idents (unitStream (src, lines))
               unsorted_qstrs := st.unsorted_qstrs ++
                 specDedup config data st.idents (unitStream (src, lines)) } := by
  intro lines
  induction lines with
  | nil =>
    intro src st
    simp [processUnit, unitStream, specSeen, specDedup]
  | cons line rest ih =>
    intro src st
    rw [processUnit, List.foldlM_cons, process_line_eq]
    simp only [Option.bind_eq_bind, Option.some_bind]
    have := ih src { idents := specSeen data st.idents ((qstrCaptures line).map fun t => (src, t))
                     unsorted_qstrs := st.unsorted_qstrs ++
                       specDedup config data st.idents ((qstrCaptures line).map fun t => (src, t)) }
    rw [processUnit] at this
    rw [this]
    simp only [unitStream, List.flatMap_cons, specSeen_append, specDedup_append,
      List.append_assoc]

/-- The whole scan fold equals the first-occurrence filter over the whole
stream. -/
theorem foldUnits_eq (config : Config) (data : Data) :
    ∀ (units : List (List Char × List (List Char))) (st : ExtractorState),
      units.foldlM (processUnit config data) st =
        some { idents := specSeen data st.idents (scanStream units)
               unsorted_qstrs := st.unsorted_qstrs ++
                 specDedup config data st.idents (scanStream units) } := by
  intro units
  induction units with
  | nil =>
    intro st
    simp [scanStream, specSeen, specDedup]
  | cons u rest ih =>
    intro st
    obtain ⟨src, lines⟩ := u
    rw [List.foldlM_cons, processUnit_eq]
    simp only [Option.bind_eq_bind, Option.some_bind]
    rw [ih]
    simp only [scanStream, List.flatMap_cons, specSeen_append, specDedup_append,
      List.append_assoc]

/-- Pointwise witnesses from a `Forall₂`. -/
theorem forall₂_mem_left {α β : Type} {R : α → β → Prop} :
    ∀ {l : List α} {ys : List β}, List.Forall₂ R l ys → ∀ a ∈ l, ∃ b, R a b := by
  intro l
  induction l with
  | nil => intro ys _ a ha; cases ha
  | cons x xs ih =>
    intro ys h a ha
    cases h with
    | cons hxy htl =>
      rcases List.mem_cons.mp ha with he | hm
      · exact ⟨_, he ▸ hxy⟩
      · exact ih htl a hm

/-- Pointwise success builds a successful `mapM`. -/
theorem mapM_option_isSome {α β : Type} {f : α → Option β} :
    ∀ {l : List α}, (∀ a ∈ l, (f a).isSome = true) → ∃ ys, l.mapM f = some ys := by
  intro l
  induction l with
  | nil => intro _; exact ⟨[], rfl⟩
  | cons a as ih =>
    intro h
    obtain ⟨b, hb⟩ := Option.isSome_iff_exists.mp (h a (List.mem_cons_self a as))
    obtain ⟨bs, hbs⟩ := ih fun x hx => h x (List.mem_cons_of_mem a hx)
    exact ⟨b :: bs, by
      simp only [List.mapM_cons, hb, hbs, Option.bind_eq_bind, Option.some_bind,
        Option.pure_def]⟩

/-- What a successful `Extractor::new` holds: the seen-set is the
identifiers of the static then unsorted built-ins, and the discovered list
starts as pool-0 records over the built-in unsorted list. -/
theorem extractorNew_eq_some {config : Config} {data : Data} {st0 : ExtractorState}
    (h : extractorNew config data = some st0) :
    st0.idents = (data.static_qstrs ++ data.unsorted_qstrs).map (qstrIdent data) ∧
      List.Forall₂ (fun s q => qstrNew config data s 0 "Built in unsorted".toList = some q)
        data.unsorted_qstrs st0.unsorted_qstrs ∧
      (∀ s ∈ data.static_qstrs ++ data.unsorted_qstrs, (escape_string s).isSome = true) := by
  rw [extractorNew] at h
  cases h1 : (data.static_qstrs ++ data.unsorted_qstrs).mapM fun s =>
      (qstrNew config data s 0 "Built in statics".toList).map (·.ident) with
  | none => rw [h1] at h; simp at h
  | some is =>
    rw [h1] at h
    cases h2 : data.unsorted_qstrs.mapM fun s =>
        qstrNew config data s 0 "Built in unsorted".toList with
    | none => rw [h2] at h; simp at h
    | some qs =>
      rw [h2] at h
      simp only [Option.bind_eq_bind, Option.some_bind, Option.some.injEq] at h
      subst h
      have hf1 := mapM_option_eq_some.mp h1
      have hesc : ∀ s ∈ data.static_qstrs ++ data.unsorted_qstrs,
          (escape_string s).isSome = true := by
        intro s hs
        obtain ⟨b, hb⟩ := forall₂_mem_left hf1 s hs
        rw [Option.map_eq_some'] at hb
        obtain ⟨q, hq, _⟩ := hb
        rw [← @qstrNew_isSome config data s 0 ("Built in statics".toList), hq]
        rfl
      refine ⟨?_, mapM_option_eq_some.mp h2, hesc⟩
      have : List.Forall₂ (fun a b => b = qstrIdent data a)
          (data.static_qstrs ++ data.unsorted_qstrs) is := by
        refine hf1.imp ?_
        intro a b hab
        rw [Option.map_eq_some'] at hab
        obtain ⟨q, hq, hb⟩ := hab
        rw [← hb, (qstrNew_proj hq).2.1]
      exact forall₂_eq_map this

/-- A successful `Extractor::new` forces `Extractor::finish` to succeed
(every built-in static escapes). -/
theorem finish_statics_some {config : Config} {data : Data} {st0 : ExtractorState}
    (h : extractorNew config data = some st0) :
    ∃ statics, (data.static_qstrs.mapM fun s =>
      qstrNew config data s 0 "Built in unsorted".toList) = some statics := by
  obtain ⟨-, -, hesc⟩ := extractorNew_eq_some h
  refine mapM_option_isSome ?_
  intro s hs
  rw [qstrNew_isSome]
  exact hesc s (List.mem_append_left _ hs)

/-- The run of the whole extractor pipeline, characterized: the static list
from the recomputation in `finish`, the discovered list as seed plus
first-occurrence filter. -/
theorem runExtractor_eq {config : Config} {data : Data} {st0 : ExtractorState}
    (units : List (List Char × List (List Char)))
    (h0 : extractorNew config data = some st0) :
    runExtractor config data units =
      (data.static_qstrs.mapM fun s =>
        qstrNew config data s 0 "Built in unsorted".toList).map fun statics =>
      { static_qstrs := statics
        unsorted_qstrs := st0.unsorted_qstrs ++
          specDedup config data st0.idents (scanStream units) } := by
  rw [runExtractor, h0]
  simp only [Option.bind_eq_bind, Option.some_bind]
  rw [foldUnits_eq]
  simp only [Option.some_bind]
  rw [extractorFinish]

/-- The first-occurrence filter never repeats an identifier, and never
emits one from the initial seen-set. -/
theorem specDedup_idents (config : Config) (data : Data) :
    ∀ (s : List (List Char × List Char)) (seen : List (List Char)),
      ((specDedup config data seen s).map (·.ident)).Nodup ∧
        ∀ q ∈ specDedup config data seen s, ¬q.ident ∈ seen := by
  intro s
  induction s with
  | nil => intro seen; exact ⟨List.nodup_nil, by intro q hq; cases hq⟩
  | cons p rest ih =>
    intro seen
    obtain ⟨src, t⟩ := p
    simp only [specDedup]
    by_cases hc : seen.contains (qstrIdent data t) = true
    · simp only [if_pos hc]
      exact ih seen
    · simp only [if_neg hc]
      have hmem : ¬qstrIdent data t ∈ seen := by
        intro hm
        exact hc (List.elem_eq_true_of_mem hm)
      obtain ⟨ihn, ihs⟩ := ih (qstrIdent data t :: seen)
      constructor
      · rw [List.map_cons, List.nodup_cons]
        refine ⟨?_, ihn⟩
        intro hin
        rw [List.mem_map] at hin
        obtain ⟨q, hq, hid⟩ := hin
        exact ihs q hq (hid ▸ List.mem_cons_self _ _)
      · intro q hq
        rcases List.mem_cons.mp hq with he | hm
        · subst he
          exact hmem
        · intro hin
          exact ihs q hm (List.mem_cons_of_mem _ hin)

/-- Every record the filter keeps comes from the stream: pool 1, origin the
stream entry's label, built from its token. -/
theorem specDedup_mem (config : Config) (data : Data) :
    ∀ (s : List (List Char × List Char)) (seen : List (List Char)) (q : QStr),
      q ∈ specDedup config data seen s →
        ∃ p ∈ s, q = mkScanQStr config data p.1 p.2 := by
  intro s
  induction s with
  | nil => intro seen q hq; cases hq
  | cons p rest ih =>
    intro seen q hq
    obtain ⟨src, t⟩ := p
    simp only [specDedup] at hq
    by_cases hc : seen.contains (qstrIdent data t) = true
    · rw [if_pos hc] at hq
      obtain ⟨p', hp', he⟩ := ih seen q hq
      exact ⟨p', List.mem_cons_of_mem _ hp', he⟩
    · rw [if_neg hc] at hq
      rcases List.mem_cons.mp hq with he | hm
      · exact ⟨(src, t), List.mem_cons_self _ _, he⟩
      · obtain ⟨p', hp', he⟩ := ih _ q hm
        exact ⟨p', List.mem_cons_of_mem _ hp', he⟩

/-- Every stream entry carries the label of the unit it came from. -/
theorem scanStream_labels {units : List (List Char × List (List Char))}
    {p : List Char × List Char} (h : p ∈ scanStream units) :
    ∃ u ∈ units, p.1 = u.1 := by
  rw [scanStream, List.mem_flatMap] at h
  obtain ⟨u, hu, hp⟩ := h
  refine ⟨u, hu, ?_⟩
  rw [unitStream, List.mem_flatMap] at hp
  obtain ⟨line, _, hp⟩ := hp
  rw [List.mem_map] at hp
  obtain ⟨t, _, he⟩ := hp
  rw [← he]

/-! ## Helper lemmas: the inline scanner refines the extractor -/

/-- A fold commutes with a state embedding that commutes with each step. -/
theorem foldlM_option_map_rel {α σ τ : Type} (g : σ → τ) {step : σ → α → Option σ}
    {step' : τ → α → Option τ}
    (hstep : ∀ s a, step' (g s) a = (step s a).map g) :
    ∀ (l : List α) (s : σ), l.foldlM step' (g s) = (l.foldlM step s).map g := by
  intro l
  induction l with
  | nil => intro s; rfl
  | cons a as ih =>
    intro s
    rw [List.foldlM_cons, List.foldlM_cons, hstep]
    cases h : step s a with
    | none => rfl
    | some s' =>
      simp only [Option.map_some', Option.bind_eq_bind, Option.some_bind]
      exact ih s'

/-- One inline capture step mirrors one extractor capture step. -/
theorem inlineCaptureStep_rel (config : Config) (data : Data) (source : List Char)
    (st : ExtractorState) (s : List Char) :
    inlineCaptureStep config data source (st.idents, st.unsorted_qstrs) s =
      (processCapture config data source st s).map
        fun st' => (st'.idents, st'.unsorted_qstrs) := by
  rw [inlineCaptureStep, processCapture, Option.map_map]
  cases qstrNew config data s 1 source with
  | none => rfl
  | some q =>
    simp only [Option.map_some', Function.comp]
    by_cases hc : st.idents.contains q.ident = true
    · rw [if_pos hc, if_pos hc]
    · rw [if_neg hc, if_neg hc]

/-- One inline line step mirrors one `process_line`. -/
theorem inlineLineStep_rel (config : Config) (data : Data) (source : List Char)
    (st : ExtractorState) (line : List Char) :
    inlineLineStep config data source (st.idents, st.unsorted_qstrs) line =
      (process_line config data st source line).map
        fun st' => (st'.idents, st'.unsorted_qstrs) := by
  rw [inlineLineStep, process_line]
  exact foldlM_option_map_rel (fun st : ExtractorState => (st.idents, st.unsorted_qstrs))
    (inlineCaptureStep_rel config data source) (qstrCaptures line) st

/-- One inline unit step mirrors one `processUnit`. -/
theorem inlineUnitStep_rel (config : Config) (data : Data)
    (st : ExtractorState) (u : List Char × List (List Char)) :
    inlineUnitStep config data (st.idents, st.unsorted_qstrs) u =
      (processUnit config data st u).map fun st' => (st'.idents, st'.unsorted_qstrs) := by
  rw [inlineUnitStep, processUnit]
  exact foldlM_option_map_rel (fun st : ExtractorState => (st.idents, st.unsorted_qstrs))
    (fun st line => inlineLineStep_rel config data u.1 st line) u.2 st

/-- The inline scan over all units mirrors the extractor's fold. -/
theorem inlineUnits_rel (config : Config) (data : Data)
    (units : List (List Char × List (List Char))) (st : ExtractorState) :
    units.foldlM (inlineUnitStep config data) (st.idents, st.unsorted_qstrs) =
      (units.foldlM (processUnit config data) st).map
        fun st' => (st'.idents, st'.unsorted_qstrs) :=
  foldlM_option_map_rel (fun st : ExtractorState => (st.idents, st.unsorted_qstrs))
    (inlineUnitStep_rel config data) units st

/-! ## Helper lemmas: hashing, identifiers, escaping -/

/-- A fold appending chunks equals the initial value before the
concatenation of all chunks. -/
theorem foldl_append_flatMap {α β : Type} (f : α → List β) :
    ∀ (l : List α) (init : List β),
      l.foldl (fun s c => s ++ f c) init = init ++ l.flatMap f := by
  intro l
  induction l with
  | nil => intro init; simp
  | cons c rest ih =>
    intro init
    rw [List.foldl_cons, ih, List.flatMap_cons, List.append_assoc]

/-- `QStr::ident` is the namespace plus the per-character translation. -/
theorem qstrIdent_eq (data : Data) (val : List Char) :
    qstrIdent data val = "MP_QSTR_".toList ++ val.flatMap (identPiece data) := by
  rw [qstrIdent, List.foldl_ext _ (fun s c => s ++ identPiece data c)]
  · exact foldl_append_flatMap (identPiece data) val _
  · intro s c _
    rw [identPiece]
    cases lookupTranslation data.qstr_ident_translations c <;> rfl

/-- The hash the code computes is the spec's hash. -/
theorem qstrHash_eq_specHash (val : List Char) (b : BytesIn) :
    qstrHash (utf8Bytes val) b = specHash val b := by
  cases b
  case one =>
    simp only [qstrHash, specHash, BytesIn.mask, specWidth]
    rw [show (255 : Nat) = 2 ^ 8 - 1 from rfl, Nat.and_pow_two_sub_one_eq_mod]
  case two =>
    simp only [qstrHash, specHash, BytesIn.mask, specWidth]
    rw [show (65535 : Nat) = 2 ^ 16 - 1 from rfl, Nat.and_pow_two_sub_one_eq_mod]

/-- The computed hash is never zero. -/
theorem qstrHash_ne_zero (data : List Nat) (b : BytesIn) : qstrHash data b ≠ 0 := by
  rw [qstrHash]
  split
  · exact one_ne_zero
  · assumption

/-- Hex digit round trip. -/
theorem hexVal_hexDigitChar {n : Nat} (h : n < 16) : hexVal (hexDigitChar n) = n := by
  interval_cases n <;> decide

/-- Hex digits produced by the escape writer are in the hex class. -/
theorem isHexDigit_hexDigitChar {n : Nat} (h : n < 16) :
    isHexDigit (hexDigitChar n) = true := by
  interval_cases n <;> decide

/-- Decoding undoes the hex escaping of an ASCII string. -/
theorem decode_flatMap_hexEscape :
    ∀ {val : List Char}, val.all isAscii = true →
      decodeEscapes (val.flatMap hexEscape) = val := by
  intro val
  induction val with
  | nil => intro _; rfl
  | cons c rest ih =>
    intro h
    rw [List.all_cons, Bool.and_eq_true] at h
    have hc : c.toNat ≤ 127 := by
      have := h.1
      simp only [isAscii, decide_eq_true_eq] at this
      exact this
    have hdiv : c.toNat / 16 < 16 := by omega
    have hmod : c.toNat % 16 < 16 := Nat.mod_lt _ (by omega)
    rw [List.flatMap_cons, hexEscape, List.cons_append, List.cons_append,
      List.cons_append, List.cons_append, List.nil_append, decodeEscapes]
    rw [if_pos]
    · rw [hexVal_hexDigitChar hdiv, hexVal_hexDigitChar hmod,
        Nat.div_add_mod c.toNat 16, Char.ofNat_toNat, ih h.2]
    · rw [isHexDigit_hexDigitChar hdiv, isHexDigit_hexDigitChar hmod]
      rfl

/-- The escaping branch of `escape_string`, as a concatenation of
per-character escapes. -/
theorem escape_string_control_ascii {val : List Char}
    (h1 : (val.all fun c => !isAsciiControl c) = false)
    (h2 : (val.any fun c => !isAscii c) = false) :
    escape_string val = some (val.flatMap hexEscape) := by
  rw [escape_string, if_neg (by simp [h1]), if_neg (by simp [h2]),
    foldl_append_flatMap, List.nil_append]

/-- A `Forall₂` whose relation computes both projections pins the mapped
lists together. -/
theorem forall₂_map_right {α β γ : Type} {f : β → γ} {g : α → γ} :
    ∀ {l : List α} {ys : List β},
      List.Forall₂ (fun a b => f b = g a) l ys → ys.map f = l.map g := by
  intro l
  induction l with
  | nil => intro ys h; cases h; rfl
  | cons a as ih =>
    intro ys h
    cases h with
    | cons hab htl => simp [hab, ih htl]

/-- The module fold appends, per category, exactly the records of the
captures of that category, in capture order. -/
theorem module_fold_eq (upc : Char → List Char) (source : List Char) :
    ∀ (caps : List (ModuleKind × List Char × List Char)) (st : ExtractedModules),
      caps.foldl
          (fun st cap =>
            let m := mkModuleRecord upc source cap
            match cap.1 with
            | .module => { st with modules := st.modules ++ [m] }
            | .extensibleModule =>
                { st with extensible_modules := st.extensible_modules ++ [m] }
            | .moduleDelegation =>
                { st with module_delegations := st.module_delegations ++ [m] })
          st =
        { modules := st.modules ++ caps.filterMap fun cap =>
            if cap.1 = ModuleKind.module then some (mkModuleRecord upc source cap)
            else none
          extensible_modules := st.extensible_modules ++ caps.filterMap fun cap =>
            if cap.1 = ModuleKind.extensibleModule then
              some (mkModuleRecord upc source cap)
            else none
          module_delegations := st.module_delegations ++ caps.filterMap fun cap =>
            if cap.1 = ModuleKind.moduleDelegation then
              some (mkModuleRecord upc source cap)
            else none } := by
  intro caps
  induction caps with
  | nil => intro st; simp
  | cons cap rest ih =>
    intro st
    obtain ⟨k, q, s⟩ := cap
    rw [List.foldl_cons]
    cases k <;>
      simp only [ih, List.filterMap_cons] <;>
      simp [List.append_assoc]

/-! ## The claims -/

/-- C1: for every string value and every configured hash width, the
computed hash equals the DJB-variant fold over the UTF-8 bytes (accumulator
5381, `(acc * 33) XOR b` with 32-bit wraparound) masked to the width, with
a masked result of 0 forced to 1; consequently it is never 0, and being a
pure function of the value and width it is deterministic. -/
theorem qstr_hash_matches_spec (val : List Char) (b : BytesIn) :
    qstrHash (utf8Bytes val) b = specHash val b ∧
      qstrHash (utf8Bytes val) b ≠ 0 ∧
      ∀ (config : Config) (data : Data) (pool : Nat) (src : List Char) (q : QStr),
        qstrNew config data val pool src = some q →
          q.hash = specHash val config.bytes_in_hash ∧ q.hash ≠ 0 :=
  ⟨qstrHash_eq_specHash val b, qstrHash_ne_zero _ b,
    fun _ _ _ _ _ h =>
      ⟨((qstrNew_proj h).2.2.1).trans (qstrHash_eq_specHash val _),
       (qstrNew_proj h).2.2.1 ▸ qstrHash_ne_zero _ _⟩⟩

/-- C1 witness: the hash of `"hello"` at width 16. -/
theorem qstr_hash_matches_spec_witness :
    qstrHash (utf8Bytes "hello".toList) BytesIn.two = specHash "hello".toList BytesIn.two ∧
      ({ pool := 1, val := "hello".toList, ident := "MP_QSTR_hello".toList,
         hash := 60903, val_len := 5, source := [] } : QStr).hash =
        specHash "hello".toList BytesIn.two :=
  have h := qstr_hash_matches_spec "hello".toList BytesIn.two
  ⟨h.1, (h.2.2 ⟨BytesIn.two, BytesIn.two⟩ ⟨[], [], []⟩ 1 []
      { pool := 1, val := "hello".toList, ident := "MP_QSTR_hello".toList,
        hash := 60903, val_len := 5, source := [] } (by decide)).1⟩

/-- C3: the escaped value by cases — no control characters: unchanged (even
with non-ASCII content); control characters and non-ASCII content: the
fatal `EncodingError`; control characters, all ASCII: every character
replaced by its two-digit lowercase hex escape. -/
theorem escape_string_case_analysis (val : List Char) :
    ((val.all fun c => !isAsciiControl c) = true → escape_string val = some val) ∧
    ((val.all fun c => !isAsciiControl c) = false →
      (val.any fun c => !isAscii c) = true → escape_string val = none) ∧
    ((val.all fun c => !isAsciiControl c) = false →
      (val.any fun c => !isAscii c) = false →
      escape_string val = some (val.flatMap hexEscape)) :=
  ⟨escape_string_of_no_control,
   fun h1 h2 => by rw [escape_string, if_neg (by simp [h1]), if_pos h2],
   fun h1 h2 => escape_string_control_ascii h1 h2⟩

/-- C3 witness: a non-ASCII value without control characters is accepted
unchanged, a non-ASCII value with a control character is fatal, an ASCII
value with a control character is hex-escaped. -/
theorem escape_string_case_analysis_witness :
    escape_string ['é'] = some ['é'] ∧
      escape_string ['é', Char.ofNat 1] = none ∧
      escape_string ['a', Char.ofNat 1] = some "\\x61\\x01".toList := by
  refine ⟨(escape_string_case_analysis ['é']).1 (by decide),
    (escape_string_case_analysis ['é', Char.ofNat 1]).2.1 (by decide) (by decide), ?_⟩
  rw [(escape_string_case_analysis ['a', Char.ofNat 1]).2.2 (by decide) (by decide)]
  decide

/-- C7: the computed identifier is the fixed namespace followed, character
by character, by `_<replacement>_` for translated characters and the
character itself otherwise, with no further validation. -/
theorem qstr_ident_translation (data : Data) (val : List Char) :
    qstrIdent data val = "MP_QSTR_".toList ++ val.flatMap (identPiece data) ∧
      ∀ (config : Config) (pool : Nat) (src : List Char) (q : QStr),
        qstrNew config data val pool src = some q →
          q.ident = "MP_QSTR_".toList ++ val.flatMap (identPiece data) :=
  ⟨qstrIdent_eq data val,
   fun _ _ _ _ h => ((qstrNew_proj h).2.1).trans (qstrIdent_eq data val)⟩

/-- C7 witness: with a table translating the space character, `"a b"` gets
identifier `MP_QSTR_a_space_b`. -/
theorem qstr_ident_translation_witness :
    ({ pool := 1, val := "a b".toList, ident := "MP_QSTR_a_space_b".toList,
       hash := 14982, val_len := 3, source := [] } : QStr).ident =
        "MP_QSTR_".toList ++
          "a b".toList.flatMap (identPiece ⟨[(' ', "space".toList)], [], []⟩) ∧
      "MP_QSTR_".toList ++
          "a b".toList.flatMap (identPiece ⟨[(' ', "space".toList)], [], []⟩) =
        "MP_QSTR_a_space_b".toList :=
  ⟨(qstr_ident_translation ⟨[(' ', "space".toList)], [], []⟩ "a b".toList).2
      ⟨BytesIn.two, BytesIn.two⟩ 1 []
      { pool := 1, val := "a b".toList, ident := "MP_QSTR_a_space_b".toList,
        hash := 14982, val_len := 3, source := [] } (by decide),
   by decide⟩

/-- C6: for every interpretation `upc` of the per-character Unicode
uppercase table (the program being the instance at the real table),
`process_line` of the module extractor appends, for every matched
declaration, exactly one record to the list of the keyword's category, the
display name being the symbol token with the namespace stripped and
upper-cased; a line with one declaration of each kind yields exactly one
record per list, `MP_QSTR_time` giving display name `TIME` (ASCII
fragment, where the table is `a`..`z` upcasing). -/
theorem module_classification (upc : Char → List Char) (st : ExtractedModules)
    (source line : List Char) :
    (module_process_line upc st source line =
      { modules := st.modules ++ (moduleCaptures line).filterMap fun cap =>
          if cap.1 = ModuleKind.module then some (mkModuleRecord upc source cap)
          else none
        extensible_modules := st.extensible_modules ++
          (moduleCaptures line).filterMap fun cap =>
            if cap.1 = ModuleKind.extensibleModule then
              some (mkModuleRecord upc source cap)
            else none
        module_delegations := st.module_delegations ++
          (moduleCaptures line).filterMap fun cap =>
            if cap.1 = ModuleKind.moduleDelegation then
              some (mkModuleRecord upc source cap)
            else none }) ∧
      (∀ cap : ModuleKind × List Char × List Char,
        (mkModuleRecord upc source cap).upper_name =
          strToUppercase upc (stripQstrNamespace cap.2.1)) ∧
      module_process_line asciiUpcaseTable ⟨[], [], []⟩ source
          ("MP_REGISTER_MODULE(MP_QSTR_time, mod_time); MP_REGISTER_EXTENSIBLE_MODULE(MP_QSTR_os, mod_os); MP_REGISTER_MODULE_DELEGATION(MP_QSTR_x, fn);".toList) =
        { modules := [{ qstr_ident := "MP_QSTR_time".toList, upper_name := "TIME".toList,
                        symbol := "mod_time".toList, source := source }]
          extensible_modules := [{ qstr_ident := "MP_QSTR_os".toList,
                                   upper_name := "OS".toList,
                                   symbol := "mod_os".toList, source := source }]
          module_delegations := [{ qstr_ident := "MP_QSTR_x".toList,
                                   upper_name := "X".toList,
                                   symbol := "fn".toList, source := source }] } :=
  ⟨by rw [module_process_line]; exact module_fold_eq upc source (moduleCaptures line) st,
   fun _ => rfl,
   rfl⟩

/-- C9: every captured symbol token is word characters only, so the fatal
non-ASCII branch of the escape computation is unreachable while scanning:
the built record's escaped value is the value itself and `process_line`
always returns successfully. -/
theorem scan_never_panics (config : Config) (data : Data) (st : ExtractorState)
    (source line : List Char) :
    (∀ t ∈ qstrCaptures line, t.all isWordChar = true ∧
        escape_string t = some t ∧
        qstrNew config data t 1 source = some (mkScanQStr config data source t)) ∧
      ∃ st', process_line config data st source line = some st' := by
  constructor
  · intro t ht
    have hw := (qstrCaptures_word ht).2
    exact ⟨hw, escape_string_of_no_control (all_not_control_of_all_word hw),
      qstrNew_word hw⟩
  · exact ⟨_, process_line_eq config data st source line⟩

/-- C9 witness: the token `abc` on a concrete line. -/
theorem scan_never_panics_witness :
    escape_string "abc".toList = some "abc".toList ∧
      qstrNew ⟨BytesIn.two, BytesIn.two⟩ ⟨[], [], []⟩ "abc".toList 1 "u".toList =
        some (mkScanQStr ⟨BytesIn.two, BytesIn.two⟩ ⟨[], [], []⟩ "u".toList "abc".toList) ∧
      ∃ st', process_line ⟨BytesIn.two, BytesIn.two⟩ ⟨[], [], []⟩ ⟨[], []⟩ "u".toList
          "see MP_QSTR_abc here".toList = some st' :=
  have h := scan_never_panics ⟨BytesIn.two, BytesIn.two⟩ ⟨[], [], []⟩ ⟨[], []⟩
    "u".toList "see MP_QSTR_abc here".toList
  ⟨(h.1 "abc".toList (by decide)).2.1, (h.1 "abc".toList (by decide)).2.2, h.2⟩

/-- Pointwise witnesses from a `Forall₂`, right side. -/
theorem forall₂_mem_right {α β : Type} {R : α → β → Prop} :
    ∀ {l : List α} {ys : List β}, List.Forall₂ R l ys → ∀ b ∈ ys, ∃ a, R a b := by
  intro l
  induction l with
  | nil => intro ys h b hb; cases h; cases hb
  | cons x xs ih =>
    intro ys h b hb
    cases h with
    | cons hxy htl =>
      rcases List.mem_cons.mp hb with he | hm
      · exact ⟨x, he ▸ hxy⟩
      · exact ih htl b hm

/-- C2: over any run, the discovered list contains each identifier at most
once (when the seeded built-in records are themselves identifier-distinct):
every capture whose identifier was already seen — the built-in static and
unsorted identifiers included — is silently dropped, and the kept records
are exactly the first occurrences of the scan stream, in scan order, after
the seeded records. -/
theorem extractor_dedupes_discovered (config : Config) (data : Data)
    (units : List (List Char × List (List Char))) (e : ExtractedQstrs)
    (h : runExtractor config data units = some e) :
    ∃ st0, extractorNew config data = some st0 ∧
      e.unsorted_qstrs = st0.unsorted_qstrs ++
        specDedup config data st0.idents (scanStream units) ∧
      ((st0.unsorted_qstrs.map (·.ident)).Nodup →
        (e.unsorted_qstrs.map (·.ident)).Nodup) := by
  cases h0 : extractorNew config data with
  | none => rw [runExtractor, h0] at h; simp at h
  | some st0 =>
    rw [runExtractor_eq units h0, Option.map_eq_some'] at h
    obtain ⟨statics, hst, he⟩ := h
    have hu : e.unsorted_qstrs = st0.unsorted_qstrs ++
        specDedup config data st0.idents (scanStream units) := by rw [← he]
    refine ⟨st0, rfl, hu, ?_⟩
    intro hseed
    rw [hu, List.map_append]
    obtain ⟨hid, hf2, -⟩ := extractorNew_eq_some h0
    have hmap : st0.unsorted_qstrs.map (·.ident) =
        data.unsorted_qstrs.map (qstrIdent data) :=
      forall₂_map_right (hf2.imp fun _ _ hab => (qstrNew_proj hab).2.1)
    have hded := specDedup_idents config data (scanStream units) st0.idents
    refine List.Nodup.append hseed hded.1 ?_
    intro a ha hb
    rw [List.mem_map] at hb
    obtain ⟨q, hq, hqa⟩ := hb
    refine hded.2 q hq ?_
    rw [hqa, hid]
    rw [hmap] at ha
    rw [List.map_append]
    exact List.mem_append_right _ ha

/-- C2 witness: one unit whose line repeats `MP_QSTR_z` and mentions the
seeded `MP_QSTR_y`; only the first `z` is kept. -/
theorem extractor_dedupes_discovered_witness :
    ∃ st0, extractorNew ⟨BytesIn.two, BytesIn.two⟩ ⟨[], ["x".toList], ["y".toList]⟩ =
        some st0 ∧
      ({ static_qstrs := [⟨0, "x".toList, "MP_QSTR_x".toList, 46557, 1,
           "Built in unsorted".toList⟩]
         unsorted_qstrs := [⟨0, "y".toList, "MP_QSTR_y".toList, 46556, 1,
             "Built in unsorted".toList⟩,
           ⟨1, "z".toList, "MP_QSTR_z".toList, 46559, 1, "u1".toList⟩] } :
            ExtractedQstrs).unsorted_qstrs =
        st0.unsorted_qstrs ++
          specDedup ⟨BytesIn.two, BytesIn.two⟩ ⟨[], ["x".toList], ["y".toList]⟩ st0.idents
            (scanStream [("u1".toList, ["MP_QSTR_z MP_QSTR_z MP_QSTR_y".toList])]) ∧
      ((st0.unsorted_qstrs.map (·.ident)).Nodup →
        ((({ static_qstrs := [⟨0, "x".toList, "MP_QSTR_x".toList, 46557, 1,
               "Built in unsorted".toList⟩]
             unsorted_qstrs := [⟨0, "y".toList, "MP_QSTR_y".toList, 46556, 1,
                 "Built in unsorted".toList⟩,
               ⟨1, "z".toList, "MP_QSTR_z".toList, 46559, 1, "u1".toList⟩] } :
                ExtractedQstrs).unsorted_qstrs.map (·.ident)).Nodup)) :=
  extractor_dedupes_discovered ⟨BytesIn.two, BytesIn.two⟩
    ⟨[], ["x".toList], ["y".toList]⟩
    [("u1".toList, ["MP_QSTR_z MP_QSTR_z MP_QSTR_y".toList])] _ (by decide)

/-- C4: `allSymbols` is exactly `staticSymbols ++ discoveredSymbols`; the
static part is one pool-0 record per built-in static entry, in built-in
list order, recomputed by `finish` independently of what was scanned. -/
theorem all_symbols_ordering (config : Config) (data : Data)
    (units : List (List Char × List (List Char))) (e : ExtractedQstrs)
    (h : runExtractor config data units = some e) :
    allSymbols e = e.static_qstrs ++ e.unsorted_qstrs ∧
      List.Forall₂ (fun s q =>
          qstrNew config data s 0 "Built in unsorted".toList = some q ∧ q.pool = 0)
        data.static_qstrs e.static_qstrs ∧
      ∀ (units' : List (List Char × List (List Char))) (e' : ExtractedQstrs),
        runExtractor config data units' = some e' → e'.static_qstrs = e.static_qstrs := by
  cases h0 : extractorNew config data with
  | none => rw [runExtractor, h0] at h; simp at h
  | some st0 =>
    have hstat : ∀ {us : List (List Char × List (List Char))} {ee : ExtractedQstrs},
        runExtractor config data us = some ee →
        (data.static_qstrs.mapM fun s =>
          qstrNew config data s 0 "Built in unsorted".toList) = some ee.static_qstrs := by
      intro us ee hh
      rw [runExtractor_eq us h0, Option.map_eq_some'] at hh
      obtain ⟨statics, hst, he⟩ := hh
      rw [hst, ← he]
    have hme := hstat h
    refine ⟨rfl, ?_, ?_⟩
    · exact (mapM_option_eq_some.mp hme).imp fun _ _ hab => ⟨hab, (qstrNew_proj hab).1⟩
    · intro units' e' h'
      exact Option.some.inj ((hstat h').symm.trans hme)

/-- C4 witness: the concatenation on a concrete run. -/
theorem all_symbols_ordering_witness :
    allSymbols
        ⟨[⟨0, "x".toList, "MP_QSTR_x".toList, 46557, 1, "Built in unsorted".toList⟩],
         [⟨0, "y".toList, "MP_QSTR_y".toList, 46556, 1, "Built in unsorted".toList⟩,
          ⟨1, "z".toList, "MP_QSTR_z".toList, 46559, 1, "u1".toList⟩]⟩ =
      [⟨0, "x".toList, "MP_QSTR_x".toList, 46557, 1, "Built in unsorted".toList⟩] ++
        [⟨0, "y".toList, "MP_QSTR_y".toList, 46556, 1, "Built in unsorted".toList⟩,
          ⟨1, "z".toList, "MP_QSTR_z".toList, 46559, 1, "u1".toList⟩] :=
  (all_symbols_ordering ⟨BytesIn.two, BytesIn.two⟩ ⟨[], ["x".toList], ["y".toList]⟩
    [("u1".toList, ["MP_QSTR_z MP_QSTR_z MP_QSTR_y".toList])] _ (by decide)).1

/-- C5 counterexample: on a concrete run, the discovered list after
aggregation holds exactly the seeded record and the scanned record, their
origins the built-in label and the unit label; appending one configured
extra record, as the spec's aggregator would, gives a different list — the
code's `Config` has no `extraSymbols` and nothing is appended. -/
theorem no_extra_symbols_appended :
    runExtractor ⟨BytesIn.two, BytesIn.two⟩ ⟨[], ["x".toList], ["y".toList]⟩
        [("u1".toList, ["MP_QSTR_z MP_QSTR_z MP_QSTR_y".toList])] =
      some ⟨[⟨0, "x".toList, "MP_QSTR_x".toList, 46557, 1, "Built in unsorted".toList⟩],
        [⟨0, "y".toList, "MP_QSTR_y".toList, 46556, 1, "Built in unsorted".toList⟩,
         ⟨1, "z".toList, "MP_QSTR_z".toList, 46559, 1, "u1".toList⟩]⟩ ∧
      ([(⟨0, "y".toList, "MP_QSTR_y".toList, 46556, 1, "Built in unsorted".toList⟩ : QStr),
        ⟨1, "z".toList, "MP_QSTR_z".toList, 46559, 1, "u1".toList⟩].map (·.source)) =
        ["Built in unsorted".toList, "u1".toList] ∧
      specAggregatedDiscovered ⟨BytesIn.two, BytesIn.two⟩ ⟨[], ["x".toList], ["y".toList]⟩
          [⟨0, "y".toList, "MP_QSTR_y".toList, 46556, 1, "Built in unsorted".toList⟩,
           ⟨1, "z".toList, "MP_QSTR_z".toList, 46559, 1, "u1".toList⟩] ["w".toList] ≠
        some [⟨0, "y".toList, "MP_QSTR_y".toList, 46556, 1, "Built in unsorted".toList⟩,
          ⟨1, "z".toList, "MP_QSTR_z".toList, 46559, 1, "u1".toList⟩] := by
  decide

/-- C5 (amended): the code's `Config` has no `extraSymbols` and the
aggregation appends nothing after scanning — the discovered list is
exactly the seeded built-in unsorted records followed by the
first-occurrence scan records, every record's origin being the built-in
label or a scanned unit's label. -/
theorem discovered_symbols_no_extras (config : Config) (data : Data)
    (units : List (List Char × List (List Char))) (e : ExtractedQstrs)
    (h : runExtractor config data units = some e) :
    ∃ st0, extractorNew config data = some st0 ∧
      e.unsorted_qstrs = st0.unsorted_qstrs ++
        specDedup config data st0.idents (scanStream units) ∧
      ∀ q ∈ e.unsorted_qstrs,
        q.source = "Built in unsorted".toList ∨ ∃ u ∈ units, q.source = u.1 := by
  cases h0 : extractorNew config data with
  | none => rw [runExtractor, h0] at h; simp at h
  | some st0 =>
    rw [runExtractor_eq units h0, Option.map_eq_some'] at h
    obtain ⟨statics, hst, he⟩ := h
    have hu : e.unsorted_qstrs = st0.unsorted_qstrs ++
        specDedup config data st0.idents (scanStream units) := by rw [← he]
    refine ⟨st0, rfl, hu, ?_⟩
    intro q hq
    rw [hu] at hq
    obtain ⟨-, hf2, -⟩ := extractorNew_eq_some h0
    rcases List.mem_append.mp hq with hs | hd
    · left
      obtain ⟨s, hsq⟩ := forall₂_mem_right hf2 q hs
      exact (qstrNew_proj hsq).2.2.2.2
    · right
      obtain ⟨p, hp, he'⟩ := specDedup_mem config data (scanStream units) st0.idents q hd
      obtain ⟨u, hu', hl⟩ := scanStream_labels hp
      exact ⟨u, hu', by rw [he', hl]; rfl⟩

/-- C5 witness: the amended statement on the concrete run of the
counterexample. -/
theorem discovered_symbols_no_extras_witness :
    ∃ st0, extractorNew ⟨BytesIn.two, BytesIn.two⟩ ⟨[], ["x".toList], ["y".toList]⟩ =
        some st0 ∧
      (⟨[⟨0, "x".toList, "MP_QSTR_x".toList, 46557, 1, "Built in unsorted".toList⟩],
        [⟨0, "y".toList, "MP_QSTR_y".toList, 46556, 1, "Built in unsorted".toList⟩,
         ⟨1, "z".toList, "MP_QSTR_z".toList, 46559, 1, "u1".toList⟩]⟩ :
          ExtractedQstrs).unsorted_qstrs =
        st0.unsorted_qstrs ++
          specDedup ⟨BytesIn.two, BytesIn.two⟩ ⟨[], ["x".toList], ["y".toList]⟩ st0.idents
            (scanStream [("u1".toList, ["MP_QSTR_z MP_QSTR_z MP_QSTR_y".toList])]) ∧
      ∀ q ∈ (⟨[⟨0, "x".toList, "MP_QSTR_x".toList, 46557, 1,
              "Built in unsorted".toList⟩],
            [⟨0, "y".toList, "MP_QSTR_y".toList, 46556, 1, "Built in unsorted".toList⟩,
             ⟨1, "z".toList, "MP_QSTR_z".toList, 46559, 1, "u1".toList⟩]⟩ :
              ExtractedQstrs).unsorted_qstrs,
        q.source = "Built in unsorted".toList ∨
          ∃ u ∈ [("u1".toList, ["MP_QSTR_z MP_QSTR_z MP_QSTR_y".toList])],
            q.source = u.1 :=
  discovered_symbols_no_extras ⟨BytesIn.two, BytesIn.two⟩
    ⟨[], ["x".toList], ["y".toList]⟩
    [("u1".toList, ["MP_QSTR_z MP_QSTR_z MP_QSTR_y".toList])] _ (by decide)

/-- C10: for the same configuration, built-in data and preprocessed units,
the inline scan of `Build::extract_data` and the `Extractor` pipeline of
the qstr module produce the same static and discovered symbol lists
(or fail together). -/
theorem extract_data_refines_extractor (config : Config) (data : Data)
    (units : List (List Char × List (List Char))) :
    (extract_data config data units).map (fun d => (d.static_qstrs, d.unsorted_qstrs)) =
      (runExtractor config data units).map fun e => (e.static_qstrs, e.unsorted_qstrs) := by
  rw [extract_data, runExtractor, extractorNew]
  cases h1 : (data.static_qstrs ++ data.unsorted_qstrs).mapM fun s =>
      (qstrNew config data s 0 "Built in statics".toList).map (·.ident) with
  | none => rfl
  | some is =>
    simp only [Option.bind_eq_bind, Option.some_bind]
    cases h2 : data.unsorted_qstrs.mapM fun s =>
        qstrNew config data s 0 "Built in unsorted".toList with
    | none => rfl
    | some qs =>
      simp only [Option.some_bind]
      have hrel := inlineUnits_rel config data units ⟨is, qs⟩
      rw [hrel]
      cases h3 : units.foldlM (processUnit config data) ⟨is, qs⟩ with
      | none => rfl
      | some st' =>
        simp only [Option.map_some', Option.some_bind, extractorFinish]
        cases h4 : data.static_qstrs.mapM fun s =>
            qstrNew config data s 0 "Built in unsorted".toList with
        | none => rfl
        | some statics => rfl

/-- C8 counterexample: escaping is not injective on its accepted domain —
the four-character ASCII string `\x01` (no control characters, accepted
unchanged) and the single control character U+0001 (accepted, escaped to
those same four characters) are distinct accepted values with one escaped
value. -/
theorem escape_not_injective :
    escape_string ['\\', 'x', '0', '1'] = escape_string [Char.ofNat 1] ∧
      ['\\', 'x', '0', '1'] ≠ [Char.ofNat 1] ∧
      escape_string ['\\', 'x', '0', '1'] = some ['\\', 'x', '0', '1'] ∧
      [Char.ofNat 1].all isAscii = true ∧ [Char.ofNat 1].any isAsciiControl = true := by
  decide

/-- C8 (amended): decoding the escaped value of an ASCII string with a
control character restores the original, and the escaped value of a string
without control characters is the value itself; escaping is reversible on
each accepted branch, though not injective across the two branches (see
the counterexample). -/
theorem escape_round_trip (val : List Char) :
    (val.all isAscii = true → val.any isAsciiControl = true →
      ∃ ev, escape_string val = some ev ∧ decodeEscapes ev = val) ∧
    (val.any isAsciiControl = false → escape_string val = some val) := by
  constructor
  · intro h1 h2
    have hall : (val.all fun c => !isAsciiControl c) = false := by
      rw [List.any_eq_true] at h2
      obtain ⟨c, hc, hcc⟩ := h2
      rw [Bool.eq_false_iff]
      intro hcontra
      rw [List.all_eq_true] at hcontra
      have hx := hcontra c hc
      rw [hcc] at hx
      simp at hx
    have hasc : (val.any fun c => !isAscii c) = false := by
      rw [Bool.eq_false_iff]
      intro hcontra
      rw [List.any_eq_true] at hcontra
      obtain ⟨c, hc, hcc⟩ := hcontra
      rw [List.all_eq_true] at h1
      have hx := h1 c hc
      rw [hx] at hcc
      simp at hcc
    exact ⟨val.flatMap hexEscape, escape_string_control_ascii hall hasc,
      decode_flatMap_hexEscape h1⟩
  · intro h2
    apply escape_string_of_no_control
    rw [List.all_eq_true]
    intro c hc
    have hcf : isAsciiControl c = false := by
      rw [Bool.eq_false_iff]
      intro hcc
      have hx : val.any isAsciiControl = true := List.any_eq_true.mpr ⟨c, hc, hcc⟩
      rw [h2] at hx
      exact absurd hx (by simp)
    simp [hcf]

/-- C8 witness: the round trip on `['a', U+0001]` and the identity on
`"hello"`. -/
theorem escape_round_trip_witness :
    (∃ ev, escape_string ['a', Char.ofNat 1] = some ev ∧
        decodeEscapes ev = ['a', Char.ofNat 1]) ∧
      escape_string "hello".toList = some "hello".toList :=
  ⟨(escape_round_trip ['a', Char.ofNat 1]).1 (by decide) (by decide),
   (escape_round_trip "hello".toList).2 (by decide)⟩
